import Mathlib

/-!
# Verification of the `PublicValues` codec (`core/src/air/public_values.rs`)

A shallow embedding of the SP1 public-values codec: the `PublicValues`
record, its packing into a padded vector of field elements (`to_vec`),
the inverse decoding (`from_vec`), and digest byte extraction
(`commit_digest_bytes`), together with proofs of the codec's contract.

Machine integers are modelled as `Nat` with explicit bounds; the panics
of the Rust source become `Except` error values; the field is the
BabyBear prime field used by the proof system, modelled as `ZMod p`.
-/

namespace PublicValuesSpec

/-- Modelled from the spec: the finite field used by the proof system's
arithmetic (an external collaborator; SP1 uses the BabyBear prime field).
The canonical value of an element is its representative in `[0, p)`. -/
def pBabyBear : Nat := 2013265921

/-- Field elements. -/
abbrev F : Type := ZMod pBabyBear

/-- `F::from_canonical_u32` / `F::from_canonical_u8`: the field element
holding the canonical value of a native scalar. -/
def fromCanonical (x : Nat) : F := (x : F)

/-- `F::as_canonical_u32` for `PrimeField32`: the canonical representative. -/
def asCanonicalU32 (a : F) : Nat := a.val

/-- `PV_DIGEST_NUM_WORDS`: the number of digest words. -/
def PV_DIGEST_NUM_WORDS : Nat := 8

/-- Modelled from the spec: `WORD_SIZE`, the byte width of one digest word
(the `Word` type lives in `core/src/air/word.rs`, outside the excerpt; the
spec infers width 4 from the native `u32` representation). -/
def WORD_SIZE : Nat := 4

/-- Modelled from the spec: `Word::<F>::from(u32)` — the fixed-width
little-endian byte decomposition of a native 32-bit word, each byte mapped
to the field element of its canonical value. -/
def wordFromU32 (w : Nat) : List F :=
  (List.range WORD_SIZE).map (fun i => fromCanonical (w / 256 ^ i % 256))

/-- Modelled from the spec: `Word::from_iter` — consume the next
`WORD_SIZE` elements from the stream as one digest word; fails when fewer
remain (the array-conversion unwrap in the source). -/
def wordFromIter (l : List F) : Option (List F) :=
  if WORD_SIZE ≤ l.length then some (l.take WORD_SIZE) else none

/-- The `PublicValues<W, T>` struct: the commit digest (an array of
`PV_DIGEST_NUM_WORDS` words, here a list with that length as invariant)
and the four scalar fields. -/
structure PublicValues (W T : Type) where
  committed_value_digest : List W
  shard : T
  start_pc : T
  next_pc : T
  exit_code : T
deriving DecidableEq, Repr

/-- The fatal condition of `to_vec` (a panic in the Rust source). -/
inductive EncodeError where
  | EncodingOverflow
deriving DecidableEq, Repr

/-- The fatal condition of `from_vec` (a panic in the Rust source). -/
inductive DecodeError where
  | TruncatedInput
deriving DecidableEq, Repr

/-- `PublicValues::<u32,u32>::to_vec::<F>`: pack the native public values
into a vector of field elements, padded with zeros to `MAX` elements.
`MAX` is `PROOF_MAX_NUM_PVS`, the externally supplied maximum public-value
count (defined in `core/src/stark`, outside the excerpt), here a
parameter. The `assert!` of the source is the `EncodingOverflow` error. -/
def to_vec (MAX : Nat) (pv : PublicValues Nat Nat) : Except EncodeError (List F) :=
  let ret : List F :=
    (pv.committed_value_digest.map wordFromU32).flatten
      ++ [fromCanonical pv.shard, fromCanonical pv.start_pc,
          fromCanonical pv.next_pc, fromCanonical pv.exit_code]
  if ret.length ≤ MAX then
    .ok (ret ++ List.replicate (MAX - ret.length) (0 : F))
  else
    .error .EncodingOverflow

/-- The digest-consumption loop of `from_vec`: pop `n` words off the
stream, returning the words and the remaining stream. -/
def takeWords : Nat → List F → Option (List (List F) × List F)
  | 0, l => some ([], l)
  | n + 1, l => do
    let w ← wordFromIter l
    let (ws, rest) ← takeWords n (l.drop WORD_SIZE)
    return (w :: ws, rest)

/-- `PublicValues::<Word<F>,F>::from_vec`: decode a vector of field
elements into a `PublicValues` whose digest words stay in decomposed
field-element form. The `panic!` on short remainder is the
`TruncatedInput` error; the `Word::from_iter` unwrap on a stream shorter
than the digest is reported the same way. -/
def from_vec (data : List F) : Except DecodeError (PublicValues (List F) F) :=
  match takeWords PV_DIGEST_NUM_WORDS data with
  | none => .error .TruncatedInput
  | some (committed_value_digest, remaining_items) =>
    match remaining_items with
    | shard :: start_pc :: next_pc :: exit_code :: _ =>
      .ok { committed_value_digest, shard, start_pc, next_pc, exit_code }
    | _ => .error .TruncatedInput

/-- `PublicValues::<Word<F>,F>::commit_digest_bytes`: the digest as
little-endian bytes, each field element's canonical value truncated to
its low 8 bits (`as u8`). -/
def commit_digest_bytes (pv : PublicValues (List F) F) : List Nat :=
  (pv.committed_value_digest.map (fun w => w.map (fun f => asCanonicalU32 f % 256))).flatten

/-- The little-endian re-merge of a decomposed word: the inverse of
`wordFromU32` on canonical byte values. -/
def wordToU32 (w : List F) : Nat :=
  w.foldr (fun a acc => asCanonicalU32 a + 256 * acc) 0

/-- The unpadded packed content of a native `PublicValues`. -/
def packContent (pv : PublicValues Nat Nat) : List F :=
  (pv.committed_value_digest.map wordFromU32).flatten
    ++ [fromCanonical pv.shard, fromCanonical pv.start_pc,
        fromCanonical pv.next_pc, fromCanonical pv.exit_code]

/-- The little-endian bytes of a native 32-bit word, as natural numbers. -/
def leBytes (w : Nat) : List Nat :=
  (List.range WORD_SIZE).map (fun i => w / 256 ^ i % 256)

/-- The worked example of the spec: `shard = 3`, `start_pc = 0x1000`,
`next_pc = 0x1004`, `exit_code = 0`, all-zero digest. -/
def pvEx : PublicValues Nat Nat :=
  { committed_value_digest := [0, 0, 0, 0, 0, 0, 0, 0],
    shard := 3, start_pc := 0x1000, next_pc := 0x1004, exit_code := 0 }

/-- A native example with a non-trivial digest. -/
def pvEx2 : PublicValues Nat Nat :=
  { committed_value_digest := [0xAABBCCDD, 1, 2, 3, 0xDEADBEEF, 5, 6, 0xFFFFFFFF],
    shard := 7, start_pc := 0x2000, next_pc := 0x2004, exit_code := 42 }

/-- The packed form of `pvEx` with maximum count 40. -/
def vEx : List F := packContent pvEx ++ List.replicate 4 (0 : F)

/-- An all-zero decomposed digest word. -/
def zeroWord : List F := [0, 0, 0, 0]

/-- The digest-extraction example of the spec: every digest element is the
encoding of `0x00` except one, the encoding of `0xFF` (word 2, byte 1,
flat offset 9). -/
def pvDigestEx : PublicValues (List F) F :=
  { committed_value_digest :=
      [zeroWord, zeroWord, [0, fromCanonical 0xFF, 0, 0], zeroWord,
       zeroWord, zeroWord, zeroWord, zeroWord],
    shard := 0, start_pc := 0, next_pc := 0, exit_code := 0 }

example : wordFromU32 0x1000 = [fromCanonical 0, fromCanonical 0x10, fromCanonical 0, fromCanonical 0] := by decide
example : wordToU32 (wordFromU32 0xAABBCCDD) = 0xAABBCCDD := by decide

/-! ## Helper lemmas -/

theorem wordFromU32_length (w : Nat) : (wordFromU32 w).length = WORD_SIZE := by
  simp [wordFromU32]

theorem wordFromU32_eq (w : Nat) :
    wordFromU32 w = [fromCanonical (w % 256), fromCanonical (w / 256 % 256),
      fromCanonical (w / 65536 % 256), fromCanonical (w / 16777216 % 256)] := by
  show ((List.range 4).map fun i => fromCanonical (w / 256 ^ i % 256)) = _
  norm_num [List.range_succ]

theorem val_fromCanonical (b : Nat) (hb : b < pBabyBear) :
    asCanonicalU32 (fromCanonical b) = b := by
  simpa [asCanonicalU32, fromCanonical] using ZMod.val_cast_of_lt hb

theorem val_fromCanonical_byte (b : Nat) (hb : b < 256) :
    asCanonicalU32 (fromCanonical b) = b :=
  val_fromCanonical b (lt_trans hb (by norm_num [pBabyBear]))

theorem wordToU32_wordFromU32 (w : Nat) (hw : w < 2 ^ 32) :
    wordToU32 (wordFromU32 w) = w := by
  rw [wordFromU32_eq]
  simp only [wordToU32, List.foldr_cons, List.foldr_nil,
    val_fromCanonical_byte _ (Nat.mod_lt _ (by norm_num))]
  omega

theorem flatten_length_uniform {α : Type} (k : Nat) (ws : List (List α))
    (h : ∀ w ∈ ws, w.length = k) : ws.flatten.length = k * ws.length := by
  induction ws with
  | nil => simp
  | cons w ws ih =>
    have hw := h w (List.mem_cons_self w ws)
    have := ih (fun w' hw' => h w' (List.mem_cons_of_mem _ hw'))
    simp [this, hw, Nat.mul_succ]
    omega

theorem flatten_getD_uniform {α : Type} (k : Nat) (ws : List (List α)) (d : α)
    (h : ∀ w ∈ ws, w.length = k) (i j : Nat) (hi : i < ws.length) (hj : j < k) :
    ws.flatten.getD (k * i + j) d = (ws.getD i []).getD j d := by
  induction ws generalizing i with
  | nil => simp at hi
  | cons w ws ih =>
    have hw := h w (List.mem_cons_self w ws)
    have hws := fun w' hw' => h w' (List.mem_cons_of_mem w hw')
    cases i with
    | zero =>
      rw [List.flatten_cons, Nat.mul_zero, Nat.zero_add, List.getD_cons_zero,
        List.getD_append w ws.flatten d j (by omega)]
    | succ m =>
      rw [List.flatten_cons, List.getD_cons_succ,
        List.getD_append_right w ws.flatten d _ (by rw [hw]; nlinarith)]
      have he : k * (m + 1) + j - w.length = k * m + j := by
        rw [hw, Nat.mul_succ]; omega
      rw [he]
      exact ih hws m (by simpa using hi)

theorem takeWords_flatten (ws : List (List F)) (rest : List F)
    (h : ∀ w ∈ ws, w.length = WORD_SIZE) :
    takeWords ws.length (ws.flatten ++ rest) = some (ws, rest) := by
  induction ws with
  | nil => simp [takeWords]
  | cons w ws ih =>
    have hw : w.length = WORD_SIZE := h w (List.mem_cons_self w ws)
    have hws : ∀ w' ∈ ws, w'.length = WORD_SIZE :=
      fun w' hw' => h w' (List.mem_cons_of_mem _ hw')
    have hassoc : (w :: ws).flatten ++ rest = w ++ (ws.flatten ++ rest) := by
      simp [List.append_assoc]
    rw [List.length_cons, hassoc, takeWords]
    have htake : (w ++ (ws.flatten ++ rest)).take WORD_SIZE = w := by
      rw [← hw]; exact List.take_left w _
    have hdrop : (w ++ (ws.flatten ++ rest)).drop WORD_SIZE = ws.flatten ++ rest := by
      rw [← hw]; exact List.drop_left w _
    rw [wordFromIter, if_pos (by simp [← hw])]
    rw [htake, hdrop, ih hws]
    rfl

theorem takeWords_eq (n : Nat) (l : List F) (h : WORD_SIZE * n ≤ l.length) :
    takeWords n l =
      some (((List.range n).map fun i => (l.drop (WORD_SIZE * i)).take WORD_SIZE),
            l.drop (WORD_SIZE * n)) := by
  induction n generalizing l with
  | zero => simp [takeWords]
  | succ m ih =>
    have h4 : WORD_SIZE ≤ l.length := by
      simp only [WORD_SIZE] at h ⊢; omega
    have hih : WORD_SIZE * m ≤ (l.drop WORD_SIZE).length := by
      simp only [List.length_drop, WORD_SIZE] at h ⊢; omega
    have h1 : l.drop (WORD_SIZE * (m + 1)) = (l.drop WORD_SIZE).drop (WORD_SIZE * m) := by
      rw [List.drop_drop]; congr 1; ring
    have h2 : ((List.range (m + 1)).map fun i => (l.drop (WORD_SIZE * i)).take WORD_SIZE)
        = l.take WORD_SIZE :: ((List.range m).map
            fun i => ((l.drop WORD_SIZE).drop (WORD_SIZE * i)).take WORD_SIZE) := by
      rw [List.range_succ_eq_map, List.map_cons, List.map_map]
      refine congrArg₂ _ (by simp) (List.map_congr_left fun i _ => ?_)
      rw [Function.comp_apply, List.drop_drop]
      congr 2
      rw [Nat.mul_succ]
      omega
    rw [takeWords, wordFromIter, if_pos h4, ih _ hih, h2, h1]
    rfl

theorem drop_eq_getD_cons {α : Type} (l : List α) (d : α) (n : Nat) (h : n < l.length) :
    l.drop n = l.getD n d :: l.drop (n + 1) := by
  rw [List.drop_eq_getElem_cons h, List.getD_eq_getElem l d h]

theorem packContent_words_length (pv : PublicValues Nat Nat) :
    ((pv.committed_value_digest.map wordFromU32).flatten).length
      = WORD_SIZE * pv.committed_value_digest.length := by
  rw [flatten_length_uniform WORD_SIZE _ ?_, List.length_map]
  intro w hw
  obtain ⟨x, -, rfl⟩ := List.mem_map.mp hw
  exact wordFromU32_length x

theorem packContent_length (pv : PublicValues Nat Nat)
    (hlen : pv.committed_value_digest.length = PV_DIGEST_NUM_WORDS) :
    (packContent pv).length = PV_DIGEST_NUM_WORDS * WORD_SIZE + 4 := by
  rw [packContent, List.length_append, packContent_words_length, hlen]
  norm_num [PV_DIGEST_NUM_WORDS, WORD_SIZE]

theorem to_vec_eq (MAX : Nat) (pv : PublicValues Nat Nat)
    (h : (packContent pv).length ≤ MAX) :
    to_vec MAX pv
      = .ok (packContent pv ++ List.replicate (MAX - (packContent pv).length) (0 : F)) := by
  simp only [packContent] at h ⊢
  rw [to_vec]
  simp only [if_pos h]

theorem to_vec_overflow (MAX : Nat) (pv : PublicValues Nat Nat)
    (h : MAX < (packContent pv).length) :
    to_vec MAX pv = .error .EncodingOverflow := by
  have h' : ¬ (packContent pv).length ≤ MAX := not_le.mpr h
  simp only [packContent] at h'
  rw [to_vec]
  simp only [if_neg h']

theorem from_vec_spec (data : List F) (h : 36 ≤ data.length) :
    from_vec data = .ok
      { committed_value_digest := (List.range 8).map
          fun i => (data.drop (4 * i)).take 4,
        shard := data.getD 32 0, start_pc := data.getD 33 0,
        next_pc := data.getD 34 0, exit_code := data.getD 35 0 } := by
  have h32 : WORD_SIZE * PV_DIGEST_NUM_WORDS ≤ data.length := by
    norm_num [WORD_SIZE, PV_DIGEST_NUM_WORDS]
    omega
  rw [from_vec, takeWords_eq _ _ h32]
  have e : data.drop (WORD_SIZE * PV_DIGEST_NUM_WORDS)
      = data.getD 32 0 :: data.getD 33 0 :: data.getD 34 0 :: data.getD 35 0
          :: data.drop 36 := by
    rw [show WORD_SIZE * PV_DIGEST_NUM_WORDS = 32 by norm_num [WORD_SIZE, PV_DIGEST_NUM_WORDS]]
    rw [drop_eq_getD_cons data 0 32 (by omega), drop_eq_getD_cons data 0 33 (by omega),
        drop_eq_getD_cons data 0 34 (by omega), drop_eq_getD_cons data 0 35 (by omega)]
  rw [e]
  rfl

theorem take_drop_of_take {α : Type} (l₁ l₂ : List α) (N n k : Nat)
    (hagree : l₁.take N = l₂.take N) (hnk : n + k ≤ N) :
    (l₁.drop n).take k = (l₂.drop n).take k := by
  have e : ∀ l : List α, (l.drop n).take k = ((l.take N).drop n).take k := by
    intro l
    rw [List.drop_take, List.take_take, inf_eq_left.mpr (by omega)]
  rw [e l₁, e l₂, hagree]

theorem getD_eq_of_take {α : Type} (l₁ l₂ : List α) (d : α) (N i : Nat)
    (hagree : l₁.take N = l₂.take N) (hi : i < N) :
    l₁.getD i d = l₂.getD i d := by
  have e : ∀ l : List α, l.getD i d = (l.take N).getD i d := by
    intro l
    rw [List.getD_eq_getElem?_getD, List.getD_eq_getElem?_getD, List.getElem?_take,
      if_pos hi]
  rw [e l₁, e l₂, hagree]

theorem from_vec_pack (pv : PublicValues Nat Nat)
    (hlen : pv.committed_value_digest.length = PV_DIGEST_NUM_WORDS) (rest : List F) :
    from_vec (packContent pv ++ rest) = .ok
      { committed_value_digest := pv.committed_value_digest.map wordFromU32,
        shard := fromCanonical pv.shard, start_pc := fromCanonical pv.start_pc,
        next_pc := fromCanonical pv.next_pc, exit_code := fromCanonical pv.exit_code } := by
  have hws : ∀ w ∈ pv.committed_value_digest.map wordFromU32, w.length = WORD_SIZE := by
    intro w hw
    obtain ⟨x, -, rfl⟩ := List.mem_map.mp hw
    exact wordFromU32_length x
  have hlen' : (pv.committed_value_digest.map wordFromU32).length = PV_DIGEST_NUM_WORDS := by
    simp [hlen]
  have e : packContent pv ++ rest
      = (pv.committed_value_digest.map wordFromU32).flatten
          ++ (fromCanonical pv.shard :: fromCanonical pv.start_pc
              :: fromCanonical pv.next_pc :: fromCanonical pv.exit_code :: rest) := by
    simp [packContent, List.append_assoc]
  rw [e, from_vec, ← hlen', takeWords_flatten _ _ hws]

theorem getD_map_of_lt {α β : Type} (f : α → β) (l : List α) (d : β) (e : α)
    (j : Nat) (hj : j < l.length) :
    (l.map f).getD j d = f (l.getD j e) := by
  rw [List.getD_eq_getElem _ _ (by simpa using hj), List.getElem_map,
    List.getD_eq_getElem _ _ hj]

theorem wordFromU32_getD (x j : Nat) (hj : j < WORD_SIZE) :
    (wordFromU32 x).getD j 0 = fromCanonical (x / 256 ^ j % 256) := by
  simp only [WORD_SIZE] at hj
  interval_cases j <;> rfl

/-! ## Claim theorems -/

/-- C4: for every input vector with at least `8 × wordwidth + 4` elements,
`from_vec` groups the first `8 × wordwidth` elements into 8 digest words in
order, each kept in decomposed field-element form, and assigns the next
four elements, in order, to `shard`, `start_pc`, `next_pc`, `exit_code`. -/
theorem C4_from_vec_structure (data : List F)
    (h : PV_DIGEST_NUM_WORDS * WORD_SIZE + 4 ≤ data.length) :
    from_vec data = .ok
      { committed_value_digest := (List.range PV_DIGEST_NUM_WORDS).map
          fun i => (data.drop (WORD_SIZE * i)).take WORD_SIZE,
        shard := data.getD (PV_DIGEST_NUM_WORDS * WORD_SIZE) 0,
        start_pc := data.getD (PV_DIGEST_NUM_WORDS * WORD_SIZE + 1) 0,
        next_pc := data.getD (PV_DIGEST_NUM_WORDS * WORD_SIZE + 2) 0,
        exit_code := data.getD (PV_DIGEST_NUM_WORDS * WORD_SIZE + 3) 0 } := by
  have h' : 36 ≤ data.length := by norm_num [PV_DIGEST_NUM_WORDS, WORD_SIZE] at h; exact h
  exact from_vec_spec data h'

theorem C4_witness :
    from_vec vEx = .ok
      { committed_value_digest := (List.range PV_DIGEST_NUM_WORDS).map
          fun i => (vEx.drop (WORD_SIZE * i)).take WORD_SIZE,
        shard := vEx.getD (PV_DIGEST_NUM_WORDS * WORD_SIZE) 0,
        start_pc := vEx.getD (PV_DIGEST_NUM_WORDS * WORD_SIZE + 1) 0,
        next_pc := vEx.getD (PV_DIGEST_NUM_WORDS * WORD_SIZE + 2) 0,
        exit_code := vEx.getD (PV_DIGEST_NUM_WORDS * WORD_SIZE + 3) 0 } :=
  C4_from_vec_structure vEx (by decide)

/-- C6: whenever fewer than 4 elements remain after consuming the
`8 × wordwidth` digest elements — any input of length in
`[8 × wordwidth, 8 × wordwidth + 4)` — decoding fails with
`TruncatedInput`, while decoding a vector with exactly
`8 × wordwidth + 4` elements succeeds. -/
theorem C6_truncation_boundary (d d36 : List F)
    (hd : PV_DIGEST_NUM_WORDS * WORD_SIZE ≤ d.length)
    (hd4 : d.length < PV_DIGEST_NUM_WORDS * WORD_SIZE + 4)
    (h36 : d36.length = PV_DIGEST_NUM_WORDS * WORD_SIZE + 4) :
    from_vec d = .error .TruncatedInput ∧ ∃ pv, from_vec d36 = .ok pv := by
  constructor
  · have h32 : WORD_SIZE * PV_DIGEST_NUM_WORDS ≤ d.length := by
      rw [Nat.mul_comm]; exact hd
    rw [from_vec, takeWords_eq _ _ h32]
    have hr : (d.drop (WORD_SIZE * PV_DIGEST_NUM_WORDS)).length < 4 := by
      have hc : WORD_SIZE * PV_DIGEST_NUM_WORDS = PV_DIGEST_NUM_WORDS * WORD_SIZE :=
        Nat.mul_comm _ _
      rw [List.length_drop, hc]
      omega
    generalize d.drop (WORD_SIZE * PV_DIGEST_NUM_WORDS) = r at hr ⊢
    rcases r with _ | ⟨a, _ | ⟨b, _ | ⟨c, _ | ⟨e, t⟩⟩⟩⟩
    · rfl
    · rfl
    · rfl
    · rfl
    · rw [List.length_cons, List.length_cons, List.length_cons, List.length_cons] at hr
      omega
  · refine ⟨_, from_vec_spec d36 ?_⟩
    rw [h36]; norm_num [WORD_SIZE, PV_DIGEST_NUM_WORDS]

theorem C6_witness :
    from_vec (List.replicate 35 (0 : F)) = .error .TruncatedInput
      ∧ ∃ pv, from_vec (List.replicate 36 (0 : F)) = .ok pv :=
  C6_truncation_boundary _ _ (by decide) (by decide) (by decide)

/-- C7: any two input vectors of length at least `8 × wordwidth + 4` that
agree on their first `8 × wordwidth + 4` elements decode to equal results;
elements beyond that point never influence the output. -/
theorem C7_decode_ignores_padding (d1 d2 : List F)
    (h1 : PV_DIGEST_NUM_WORDS * WORD_SIZE + 4 ≤ d1.length)
    (h2 : PV_DIGEST_NUM_WORDS * WORD_SIZE + 4 ≤ d2.length)
    (hagree : d1.take (PV_DIGEST_NUM_WORDS * WORD_SIZE + 4)
      = d2.take (PV_DIGEST_NUM_WORDS * WORD_SIZE + 4)) :
    from_vec d1 = from_vec d2 := by
  norm_num [PV_DIGEST_NUM_WORDS, WORD_SIZE] at h1 h2 hagree
  rw [from_vec_spec d1 h1, from_vec_spec d2 h2]
  have hdig : ((List.range 8).map fun i => (d1.drop (4 * i)).take 4)
      = (List.range 8).map fun i => (d2.drop (4 * i)).take 4 :=
    List.map_congr_left fun i hi => take_drop_of_take d1 d2 36 (4 * i) 4 hagree
      (by have := List.mem_range.mp hi; omega)
  rw [hdig, getD_eq_of_take d1 d2 0 36 32 hagree (by omega),
      getD_eq_of_take d1 d2 0 36 33 hagree (by omega),
      getD_eq_of_take d1 d2 0 36 34 hagree (by omega),
      getD_eq_of_take d1 d2 0 36 35 hagree (by omega)]

theorem C7_witness :
    from_vec vEx = from_vec (vEx ++ [fromCanonical 99]) :=
  C7_decode_ignores_padding _ _ (by decide) (by decide) (by decide)

/-- C9: for every input vector with at least `8 × wordwidth + 4` elements,
`from_vec` returns a value without failing. -/
theorem C9_from_vec_total (data : List F)
    (h : PV_DIGEST_NUM_WORDS * WORD_SIZE + 4 ≤ data.length) :
    ∃ pv, from_vec data = .ok pv := by
  norm_num [PV_DIGEST_NUM_WORDS, WORD_SIZE] at h
  exact ⟨_, from_vec_spec data h⟩

theorem C9_witness : ∃ pv, from_vec (List.replicate 36 (0 : F)) = .ok pv :=
  C9_from_vec_total _ (by decide)

/-- C2: for every native `PublicValues` for which packing succeeds, the
packed vector has length exactly the configured maximum, and every element
at index `8 × wordwidth + 4` or beyond is the field's zero element. -/
theorem C2_to_vec_padding (MAX : Nat) (pv : PublicValues Nat Nat)
    (hlen : pv.committed_value_digest.length = PV_DIGEST_NUM_WORDS)
    (v : List F) (hv : to_vec MAX pv = .ok v) :
    v.length = MAX
      ∧ ∀ i, PV_DIGEST_NUM_WORDS * WORD_SIZE + 4 ≤ i → v.getD i 0 = 0 := by
  have hpl := packContent_length pv hlen
  by_cases hle : (packContent pv).length ≤ MAX
  · rw [to_vec_eq MAX pv hle] at hv
    injection hv with hv
    subst hv
    constructor
    · rw [List.length_append, List.length_replicate, hpl]
      rw [hpl] at hle
      omega
    · intro i hi
      rw [List.getD_eq_getElem?_getD,
        List.getElem?_append_right (by rw [hpl]; omega), List.getElem?_replicate]
      split <;> rfl
  · rw [to_vec_overflow MAX pv (by omega)] at hv
    exact absurd hv (by simp)

theorem C2_witness :
    vEx.length = 40
      ∧ ∀ i, PV_DIGEST_NUM_WORDS * WORD_SIZE + 4 ≤ i → vEx.getD i 0 = 0 :=
  C2_to_vec_padding 40 pvEx (by decide) vEx rfl

/-- C5: `to_vec` fails with `EncodingOverflow` if and only if the unpadded
content length (`8 × wordwidth + 4`) exceeds the supplied maximum; content
whose length equals the maximum exactly succeeds with no padding added. -/
theorem C5_encoding_overflow (MAX : Nat) (pv : PublicValues Nat Nat)
    (hlen : pv.committed_value_digest.length = PV_DIGEST_NUM_WORDS) :
    (to_vec MAX pv = .error .EncodingOverflow
        ↔ MAX < PV_DIGEST_NUM_WORDS * WORD_SIZE + 4)
      ∧ (MAX = PV_DIGEST_NUM_WORDS * WORD_SIZE + 4
          → to_vec MAX pv = .ok (packContent pv)) := by
  have hpl := packContent_length pv hlen
  constructor
  · constructor
    · intro he
      by_contra hnot
      rw [to_vec_eq MAX pv (by omega)] at he
      exact absurd he (by simp)
    · intro hlt
      exact to_vec_overflow MAX pv (by omega)
  · intro hMAX
    rw [to_vec_eq MAX pv (by omega), hpl, hMAX, Nat.sub_self, List.replicate_zero,
      List.append_nil]

theorem C5_witness :
    (to_vec 36 pvEx = .error .EncodingOverflow
        ↔ 36 < PV_DIGEST_NUM_WORDS * WORD_SIZE + 4)
      ∧ (36 = PV_DIGEST_NUM_WORDS * WORD_SIZE + 4
          → to_vec 36 pvEx = .ok (packContent pvEx)) :=
  C5_encoding_overflow 36 pvEx (by decide)

/-- C1: for every native `PublicValues` whose packed length fits the
maximum, `from_vec (to_vec pv)` yields scalar fields equal to the field
encodings of `pv`'s scalars, and digest words whose little-endian re-merge
equals `pv.committed_value_digest` exactly. -/
theorem C1_round_trip (MAX : Nat) (pv : PublicValues Nat Nat)
    (hlen : pv.committed_value_digest.length = PV_DIGEST_NUM_WORDS)
    (hw : ∀ w ∈ pv.committed_value_digest, w < 2 ^ 32)
    (hmax : (packContent pv).length ≤ MAX) :
    ∃ v pv2, to_vec MAX pv = .ok v ∧ from_vec v = .ok pv2
      ∧ pv2.shard = fromCanonical pv.shard
      ∧ pv2.start_pc = fromCanonical pv.start_pc
      ∧ pv2.next_pc = fromCanonical pv.next_pc
      ∧ pv2.exit_code = fromCanonical pv.exit_code
      ∧ pv2.committed_value_digest.map wordToU32 = pv.committed_value_digest := by
  refine ⟨_, _, to_vec_eq MAX pv hmax, from_vec_pack pv hlen _, rfl, rfl, rfl, rfl, ?_⟩
  show (pv.committed_value_digest.map wordFromU32).map wordToU32
    = pv.committed_value_digest
  calc (pv.committed_value_digest.map wordFromU32).map wordToU32
      = pv.committed_value_digest.map (wordToU32 ∘ wordFromU32) :=
        List.map_map wordToU32 wordFromU32 _
    _ = pv.committed_value_digest.map id :=
        List.map_congr_left fun w hw' => wordToU32_wordFromU32 w (hw w hw')
    _ = pv.committed_value_digest := List.map_id _

theorem C1_witness :
    ∃ v pv2, to_vec 40 pvEx2 = .ok v ∧ from_vec v = .ok pv2
      ∧ pv2.shard = fromCanonical pvEx2.shard
      ∧ pv2.start_pc = fromCanonical pvEx2.start_pc
      ∧ pv2.next_pc = fromCanonical pvEx2.next_pc
      ∧ pv2.exit_code = fromCanonical pvEx2.exit_code
      ∧ pv2.committed_value_digest.map wordToU32 = pvEx2.committed_value_digest :=
  C1_round_trip 40 pvEx2 (by decide) (by decide) (by decide)

/-- C3: the packed vector lays out, in order, the little-endian byte
decompositions of the 8 digest words (each byte as a field element), then
the field encodings of `shard`, `start_pc`, `next_pc`, `exit_code`. -/
theorem C3_pack_layout (MAX : Nat) (pv : PublicValues Nat Nat)
    (hlen : pv.committed_value_digest.length = PV_DIGEST_NUM_WORDS)
    (v : List F) (hv : to_vec MAX pv = .ok v) :
    (∀ i, i < PV_DIGEST_NUM_WORDS → ∀ j, j < WORD_SIZE →
        v.getD (WORD_SIZE * i + j) 0
          = fromCanonical (pv.committed_value_digest.getD i 0 / 256 ^ j % 256))
      ∧ v.getD (PV_DIGEST_NUM_WORDS * WORD_SIZE) 0 = fromCanonical pv.shard
      ∧ v.getD (PV_DIGEST_NUM_WORDS * WORD_SIZE + 1) 0 = fromCanonical pv.start_pc
      ∧ v.getD (PV_DIGEST_NUM_WORDS * WORD_SIZE + 2) 0 = fromCanonical pv.next_pc
      ∧ v.getD (PV_DIGEST_NUM_WORDS * WORD_SIZE + 3) 0
          = fromCanonical pv.exit_code := by
  have hpl := packContent_length pv hlen
  have hle : (packContent pv).length ≤ MAX := by
    by_contra hnle
    rw [to_vec_overflow MAX pv (by omega)] at hv
    exact absurd hv (by simp)
  rw [to_vec_eq MAX pv hle] at hv
  injection hv with hv
  subst hv
  have hws : ∀ w ∈ pv.committed_value_digest.map wordFromU32, w.length = WORD_SIZE := by
    intro w hw'
    obtain ⟨x, -, rfl⟩ := List.mem_map.mp hw'
    exact wordFromU32_length x
  have hflat : ((pv.committed_value_digest.map wordFromU32).flatten).length
      = WORD_SIZE * PV_DIGEST_NUM_WORDS := by
    rw [packContent_words_length, hlen]
  have epack : packContent pv ++ List.replicate (MAX - (packContent pv).length) (0 : F)
      = (pv.committed_value_digest.map wordFromU32).flatten
          ++ (fromCanonical pv.shard :: fromCanonical pv.start_pc
              :: fromCanonical pv.next_pc :: fromCanonical pv.exit_code
              :: List.replicate (MAX - (packContent pv).length) (0 : F)) := by
    simp [packContent, List.append_assoc]
  refine ⟨?_, ?_, ?_, ?_, ?_⟩
  · intro i hi j hj
    have hij : WORD_SIZE * i + j
        < ((pv.committed_value_digest.map wordFromU32).flatten).length := by
      rw [hflat]
      have h1 : WORD_SIZE * i + j < WORD_SIZE * (i + 1) := by rw [Nat.mul_succ]; omega
      exact lt_of_lt_of_le h1 (Nat.mul_le_mul_left WORD_SIZE hi)
    have hi' : i < (pv.committed_value_digest.map wordFromU32).length := by
      rw [List.length_map, hlen]; exact hi
    rw [epack, List.getD_append _ _ _ _ hij,
      flatten_getD_uniform WORD_SIZE _ 0 hws i j hi' hj,
      getD_map_of_lt wordFromU32 _ [] 0 i (by rw [hlen]; exact hi),
      wordFromU32_getD _ j hj]
  all_goals
    have hflat2 : ((pv.committed_value_digest.map wordFromU32).flatten).length
        = PV_DIGEST_NUM_WORDS * WORD_SIZE :=
      hflat.trans (Nat.mul_comm WORD_SIZE PV_DIGEST_NUM_WORDS)
  · rw [epack, List.getD_append_right _ _ _ _ (le_of_eq hflat2), hflat2]
    rfl
  · rw [epack, List.getD_append_right _ _ _ _
      (le_trans (le_of_eq hflat2) (Nat.le_add_right _ 1)), hflat2]
    rfl
  · rw [epack, List.getD_append_right _ _ _ _
      (le_trans (le_of_eq hflat2) (Nat.le_add_right _ 2)), hflat2]
    rfl
  · rw [epack, List.getD_append_right _ _ _ _
      (le_trans (le_of_eq hflat2) (Nat.le_add_right _ 3)), hflat2]
    rfl

theorem C3_witness :
    (∀ i, i < PV_DIGEST_NUM_WORDS → ∀ j, j < WORD_SIZE →
        vEx.getD (WORD_SIZE * i + j) 0
          = fromCanonical (pvEx.committed_value_digest.getD i 0 / 256 ^ j % 256))
      ∧ vEx.getD (PV_DIGEST_NUM_WORDS * WORD_SIZE) 0 = fromCanonical pvEx.shard
      ∧ vEx.getD (PV_DIGEST_NUM_WORDS * WORD_SIZE + 1) 0 = fromCanonical pvEx.start_pc
      ∧ vEx.getD (PV_DIGEST_NUM_WORDS * WORD_SIZE + 2) 0 = fromCanonical pvEx.next_pc
      ∧ vEx.getD (PV_DIGEST_NUM_WORDS * WORD_SIZE + 3) 0
          = fromCanonical pvEx.exit_code :=
  C3_pack_layout 40 pvEx (by decide) vEx rfl

/-- C8: `commit_digest_bytes` yields `8 × wordwidth` bytes, each the
canonical value of the corresponding digest element truncated to its low
8 bits, concatenated across the words in order. -/
theorem C8_commit_digest_bytes (pv : PublicValues (List F) F)
    (hlen : pv.committed_value_digest.length = PV_DIGEST_NUM_WORDS)
    (hw : ∀ w ∈ pv.committed_value_digest, w.length = WORD_SIZE) :
    (commit_digest_bytes pv).length = PV_DIGEST_NUM_WORDS * WORD_SIZE
      ∧ ∀ i, i < PV_DIGEST_NUM_WORDS → ∀ j, j < WORD_SIZE →
          (commit_digest_bytes pv).getD (WORD_SIZE * i + j) 0
            = asCanonicalU32 ((pv.committed_value_digest.getD i []).getD j 0) % 256 := by
  have hbs : ∀ w ∈ pv.committed_value_digest.map
      (fun w => w.map fun f => asCanonicalU32 f % 256), w.length = WORD_SIZE := by
    intro w hw'
    obtain ⟨x, hx, rfl⟩ := List.mem_map.mp hw'
    rw [List.length_map]
    exact hw x hx
  constructor
  · rw [commit_digest_bytes, flatten_length_uniform WORD_SIZE _ hbs, List.length_map,
      hlen, Nat.mul_comm]
  · intro i hi j hj
    have hi' : i < pv.committed_value_digest.length := by rw [hlen]; exact hi
    have hmap : i < (pv.committed_value_digest.map
        (fun w => w.map fun f => asCanonicalU32 f % 256)).length := by
      rw [List.length_map]; exact hi'
    have hmem : pv.committed_value_digest.getD i [] ∈ pv.committed_value_digest := by
      rw [List.getD_eq_getElem _ _ hi']
      exact List.getElem_mem hi'
    have hj2 : j < (pv.committed_value_digest.getD i []).length := by
      rw [hw _ hmem]; exact hj
    rw [commit_digest_bytes, flatten_getD_uniform WORD_SIZE _ 0 hbs i j hmap hj,
      getD_map_of_lt _ _ [] [] i hi', getD_map_of_lt _ _ 0 0 j hj2]

theorem C8_witness :
    (commit_digest_bytes pvDigestEx).length = PV_DIGEST_NUM_WORDS * WORD_SIZE
      ∧ ∀ i, i < PV_DIGEST_NUM_WORDS → ∀ j, j < WORD_SIZE →
          (commit_digest_bytes pvDigestEx).getD (WORD_SIZE * i + j) 0
            = asCanonicalU32
                ((pvDigestEx.committed_value_digest.getD i []).getD j 0) % 256 :=
  C8_commit_digest_bytes pvDigestEx (by decide) (by decide)

example : commit_digest_bytes pvDigestEx
    = [0, 0, 0, 0, 0, 0, 0, 0, 0, 0xFF, 0, 0, 0, 0, 0, 0,
       0, 0, 0, 0, 0, 0, 0, 0, 0, 0, 0, 0, 0, 0, 0, 0] := by decide

theorem bytes_wordFromU32 (x : Nat) :
    (wordFromU32 x).map (fun f => asCanonicalU32 f % 256) = leBytes x := by
  rw [wordFromU32, leBytes, List.map_map]
  refine List.map_congr_left fun i _ => ?_
  rw [Function.comp_apply, val_fromCanonical_byte _ (Nat.mod_lt _ (by norm_num))]
  omega

/-- C10: for every native `PublicValues` for which packing succeeds, the
digest bytes extracted from the decoded value equal the concatenated
little-endian bytes of the original 8 digest words. -/
theorem C10_byte_round_trip (MAX : Nat) (pv : PublicValues Nat Nat)
    (hlen : pv.committed_value_digest.length = PV_DIGEST_NUM_WORDS)
    (_hw : ∀ w ∈ pv.committed_value_digest, w < 2 ^ 32)
    (hmax : (packContent pv).length ≤ MAX) :
    ∃ v pv2, to_vec MAX pv = .ok v ∧ from_vec v = .ok pv2
      ∧ commit_digest_bytes pv2
          = (pv.committed_value_digest.map leBytes).flatten := by
  refine ⟨_, _, to_vec_eq MAX pv hmax, from_vec_pack pv hlen _, ?_⟩
  show ((pv.committed_value_digest.map wordFromU32).map
      (fun w => w.map fun f => asCanonicalU32 f % 256)).flatten = _
  rw [List.map_map]
  exact congrArg List.flatten
    (List.map_congr_left fun x _ => bytes_wordFromU32 x)

theorem C10_witness :
    ∃ v pv2, to_vec 40 pvEx2 = .ok v ∧ from_vec v = .ok pv2
      ∧ commit_digest_bytes pv2
          = (pvEx2.committed_value_digest.map leBytes).flatten :=
  C10_byte_round_trip 40 pvEx2 (by decide) (by decide) (by decide)

end PublicValuesSpec
